import Mathlib

/-!
Shallow embedding of the pyMFE metafeature-extraction orchestration engine
(`pymfe/mfe.py` and `pymfe/_internal.py`, plus the precompute routines of
`pymfe/clustering.py` and `pymfe/complexity.py`).

Modelling conventions:
* Python values flowing through the engine are modelled by the inductive
  type `PyVal`; the constructor records the Python *type* of the value
  (needed because `_internal.isnumeric` dispatches on `isinstance`).
* Python dicts are association lists with unique keys (uniqueness is a
  hypothesis where it matters); `dictUpdate` models `d[k] = v` and
  `dictMerge a b` models the literal `{**a, **b}` (later entries win).
* Feature and summary callables are opaque (the statistical formulas are
  external collaborators): a callable is a record of its declared
  parameter-name list (what `inspect.signature` returns) and a Lean
  function giving its behaviour.  A callable that raises `TypeError` on an
  invocation is modelled by the outcome `FtOutcome.tyErr` (features)
  or by returning `none` (summaries).
* `warnings.warn` is a side channel; functions that warn return the list
  of warning messages alongside their Python return value.
* Array data beyond its shape is irrelevant to every claim treated here,
  so fitted arrays are modelled by their shape (`List Nat`).
* CPython iterates a `set` in an unspecified, hash-dependent order.  The
  model `pySet` fixes the order of `tuple(set(xs))` to first-occurrence
  order; no theorem below depends on this choice except where the
  surrounding text says so explicitly.
-/

namespace Pymfe

/-- Model of a Python value, tagged with its Python type as needed by
`_internal.isnumeric` / `_TYPE_NUMERIC`. -/
inductive PyVal where
  | pyInt (n : Int)
  | pyFloat (q : ℚ)
  | pyNan
  | npInt32 (n : Int)
  | npInt64 (n : Int)
  | npFloat32 (q : ℚ)
  | npFloat64 (q : ℚ)
  | pyStr (s : String)
  | pyNone
  | pyArr (shape : List Nat)
deriving DecidableEq, Repr

/-- `_internal._TYPE_NUMERIC` membership test: `_internal.isnumeric` is
`isinstance(value, (int, float, np.int32, np.float32, np.float64, np.int64))`.
A NaN is a `float`, hence numeric. -/
def isnumeric : PyVal → Bool
  | .pyStr _ => false
  | .pyNone => false
  | .pyArr _ => false
  | _ => true

/-- Model of `np.ndarray.astype(np.float32)` applied entrywise: numeric
values become 32-bit floats, NaN stays NaN.  (Non-numeric values never
reach this cast in `MFE._summarize`.) -/
def toFloat32 : PyVal → PyVal
  | .pyInt n => .npFloat32 n
  | .pyFloat q => .npFloat32 q
  | .npInt32 n => .npFloat32 n
  | .npInt64 n => .npFloat32 n
  | .npFloat64 q => .npFloat32 q
  | .npFloat32 q => .npFloat32 q
  | .pyNan => .pyNan
  | v => v

/-- Python dict modelled as an insertion-ordered association list. -/
abbrev Dict := List (String × PyVal)

/-- Keys of a dict, in insertion order. -/
def dictKeys {α : Type} (d : List (String × α)) : List String :=
  d.map Prod.fst

/-- Python `d[k] = v`: overwrite in place if the key exists, else append. -/
def dictUpdate {α : Type} (d : List (String × α)) (k : String) (v : α) :
    List (String × α) :=
  if k ∈ dictKeys d then
    d.map (fun p => if p.1 = k then (k, v) else p)
  else
    d ++ [(k, v)]

/-- Python `{**a, **b}`: start from `a` and insert every entry of `b`
in order, so entries of `b` win on key clashes. -/
def dictMerge {α : Type} (a b : List (String × α)) : List (String × α) :=
  b.foldl (fun acc p => dictUpdate acc p.1 p.2) a

/-- Python `str.lower` (written on the character list so that it reduces
in the kernel). -/
def strLower (s : String) : String := String.mk (s.data.map Char.toLower)

/-- Auxiliary loop for `pySet`: drop every element already seen. -/
def pySetAux (seen : List String) : List String → List String
  | [] => []
  | x :: xs => if x ∈ seen then pySetAux seen xs else x :: pySetAux (x :: seen) xs

/-- Model of `tuple(set(xs))`: duplicates removed, first occurrence kept.
CPython's actual set iteration order is unspecified (hash-dependent). -/
def pySet (l : List String) : List String := pySetAux [] l

/-- Outcome of invoking a feature-extraction callable: it may raise
`TypeError` (bad arguments), return a scalar, or return a sequence/array
(`isinstance(features, (np.ndarray, collections.Sequence))`). -/
inductive FtOutcome where
  | tyErr
  | scal (v : PyVal)
  | vect (vs : List PyVal)
deriving DecidableEq, Repr

/-- A feature value as seen by `MFE.extract` after `MFE._get_feat_value`
(which never lets `TypeError` escape). -/
inductive FtValue where
  | scalarV (v : PyVal)
  | vectorV (vs : List PyVal)
deriving DecidableEq, Repr

/-- Result of a summary routine: a scalar or a small sequence. -/
inductive MetaVal where
  | scal (v : PyVal)
  | seq (vs : List PyVal)
deriving DecidableEq, Repr

/-- A feature-extraction callable: its declared parameter names (what
`_internal._extract_mtd_args` reads off `inspect.signature`) and its
behaviour on a kwargs dict. -/
structure PyCallable where
  args : List String
  run : Dict → FtOutcome

/-- A summary callable: declared parameter names and behaviour on the
(processed) feature sequence plus kwargs; `none` models raising
`TypeError`. -/
structure SumCallable where
  args : List String
  run : List PyVal → Dict → Option MetaVal

/-- `MFE._build_mtd_args(method_name, method_args, inner_custom_args,
user_custom_args, suppress_warnings)`.  Returns the kwargs dict together
with the emitted warnings.  Source:
`combined_args = {**user_custom_args, **inner_custom_args}` filtered down
to `method_args`; a warning per user key not in `method_args`. -/
def build_mtd_args (method_name : String) (method_args : List String)
    (inner_custom_args : Option Dict) (user_custom_args : Option Dict)
    (suppress_warnings : Bool) : Dict × List String :=
  let user := user_custom_args.getD []
  let inner := inner_custom_args.getD []
  let combined_args := dictMerge user inner
  let callable_args := combined_args.filter (fun p => p.1 ∈ method_args)
  let warns :=
    if suppress_warnings then []
    else (dictKeys user).filter (fun k => k ∉ method_args) |>.map
      (fun k => "Unknown argument " ++ k ++ " for method " ++ method_name)
  (callable_args, warns)

/-- The pre-summary cleaning step of `MFE._summarize` with
`remove_nan=True`: keep exactly the values of a numeric Python type. -/
def numericFilter (features : List PyVal) : List PyVal :=
  features.filter (fun v => isnumeric v)

namespace MFE

/-- `MFE._summarize`: optionally clean the sequence, invoke the summary
callable, convert a `TypeError` into the `np.nan` sentinel. -/
def summarize (callable_sum : SumCallable) (features : List PyVal)
    (callable_args : Option Dict) (remove_nan : Bool) : MetaVal :=
  let processed_feat :=
    if remove_nan then (numericFilter features).map toFloat32 else features
  match callable_sum.run processed_feat (callable_args.getD []) with
  | some v => v
  | none => .scal .pyNan

/-- `MFE._get_feat_value`: invoke the feature callable; a `TypeError`
becomes the scalar `np.nan` plus a warning (unless suppressed). -/
def getFeatValue (method_name : String) (method_args : Dict)
    (method_callable : PyCallable) (suppress_warnings : Bool) :
    FtValue × List String :=
  match method_callable.run method_args with
  | .tyErr =>
      (.scalarV .pyNan,
        if suppress_warnings then []
        else ["Error extracting " ++ method_name ++
              ": will set it as nan for all summary functions"])
  | .scal v => (.scalarV v, [])
  | .vect vs => (.vectorV vs, [])

/-- Value-level test used by `MFE._check_summary_warnings`:
`any(np.isnan(value))` after wrapping a non-iterable value in a list. -/
def hasNanMV : MetaVal → Bool
  | .scal v => v == .pyNan
  | .seq vs => vs.contains .pyNan

/-- `MFE._check_summary_warnings`: warn when the summarized value contains
`np.nan`. -/
def checkSummaryWarnings (value : MetaVal) (name_feature name_summary : String) :
    List String :=
  if hasNanMV value then
    ["Failed to summarize " ++ name_feature ++ " with " ++ name_summary]
  else []

/-- One iteration of the loop of `MFE._call_summary_methods`: build the
summary kwargs, summarize, and collect the appended name, value and
warnings. -/
def csmStep (feature_values : List PyVal) (feature_name : String)
    (remove_nan suppress_warnings : Bool) (kwargs : String → Option Dict)
    (sm : String × SumCallable × List String) :
    (List String × List MetaVal) × List String :=
  let pack := build_mtd_args sm.1 sm.2.2 none (kwargs sm.1) suppress_warnings
  let summarized_val := summarize sm.2.1 feature_values (some pack.1) remove_nan
  let sumWarns :=
    if suppress_warnings then []
    else checkSummaryWarnings summarized_val feature_name sm.1
  (([feature_name ++ "." ++ sm.1], [summarized_val]), pack.2 ++ sumWarns)

/-- `MFE._call_summary_methods`: apply every selected summary routine, in
selection order, to a vector-valued feature.  Returns
`((metafeat_names, metafeat_vals), warnings)`. -/
def callSummaryMethods (summary : List (String × SumCallable × List String))
    (feature_values : List PyVal) (feature_name : String)
    (remove_nan suppress_warnings : Bool) (kwargs : String → Option Dict) :
    (List String × List MetaVal) × List String :=
  summary.foldl
    (fun acc sm =>
      let r := csmStep feature_values feature_name remove_nan suppress_warnings
        kwargs sm
      ((acc.1.1 ++ r.1.1, acc.1.2 ++ r.1.2), acc.2 ++ r.2))
    (([], []), [])

end MFE

/-- `_internal.MTF_PREFIX` (renamed: the model name avoids the suffix). -/
def MTF_PFX : String := "ft_"

/-- `_internal.remove_mtd_prefix` (renamed likewise): strip the `ft_`
marker from a method name (`mtd_name.startswith(MTF_PREFIX)` plus
slicing, written on character lists so that it reduces in the kernel). -/
def remove_mtd_pfx (mtd_name : String) : String :=
  if MTF_PFX.data.isPrefixOf mtd_name.data then
    String.mk (mtd_name.data.drop MTF_PFX.data.length)
  else mtd_name

/-- Engine state: fitted data (shapes), splits, and the selection metadata
computed at construction time (`self._ft_mtd_metadata`, `self.summary`). -/
structure MFEState where
  X : Option (List Nat)
  y : Option (List Nat)
  splits : Option PyVal
  ftMtdMetadata : List (String × PyCallable × List String)
  summary : List (String × SumCallable × List String)

/-- The only fatal extraction error: `extract` before `fit`
(`TypeError("Fitted data not found...")`). -/
inductive MFEErr where
  | notFitted
deriving DecidableEq, Repr

namespace MFE

/-- `self._custom_args_ft` as set by `MFE.fit`: the fit context offered to
every feature routine. -/
def customArgsFt (sx sy : List Nat) (splits : Option PyVal) : Dict :=
  [("X", .pyArr sx), ("y", .pyArr sy), ("splits", splits.getD .pyNone)]

/-- The kwargs dict built for one feature routine inside `MFE.extract`. -/
def ftArgsPack (inner : Dict) (kwargs : String → Option Dict)
    (suppress_warnings : Bool) (m : String × PyCallable × List String) : Dict :=
  (build_mtd_args (remove_mtd_pfx m.1) m.2.2 (some inner)
    (kwargs (remove_mtd_pfx m.1)) suppress_warnings).1

/-- One iteration of the extraction loop of `MFE.extract`: resolve the
arguments, invoke the routine, and either record the scalar under the bare
feature name or summarize the vector.  Returns
`((appended names, appended values), warnings)`. -/
def extractFeature (inner : Dict)
    (summary : List (String × SumCallable × List String))
    (remove_nan suppress_warnings : Bool) (kwargs : String → Option Dict)
    (m : String × PyCallable × List String) :
    (List String × List MetaVal) × List String :=
  let bare := remove_mtd_pfx m.1
  let packWarns :=
    (build_mtd_args bare m.2.2 (some inner) (kwargs bare) suppress_warnings).2
  let fv := getFeatValue m.1 (ftArgsPack inner kwargs suppress_warnings m)
    m.2.1 suppress_warnings
  match fv.1 with
  | .vectorV vs =>
      let r := callSummaryMethods summary vs bare remove_nan suppress_warnings kwargs
      (r.1, packWarns ++ fv.2 ++ r.2)
  | .scalarV v => (([bare], [.scal v]), packWarns ++ fv.2)

/-- `MFE.extract`: fail on an unfitted state, otherwise run the extraction
loop over every selected feature routine.  Returns the
`(metafeat_names, metafeat_vals)` pair plus the emitted warnings.
(The `isinstance` re-validation at the top of the source is a no-op for
states produced by `fit`, which always stores coerced arrays.) -/
def extract (s : MFEState) (remove_nan suppress_warnings : Bool)
    (kwargs : String → Option Dict) :
    Except MFEErr ((List String × List MetaVal) × List String) :=
  match s.X, s.y with
  | some sx, some sy =>
      .ok (s.ftMtdMetadata.foldl
        (fun acc m =>
          let r := extractFeature (customArgsFt sx sy s.splits) s.summary
            remove_nan suppress_warnings kwargs m
          ((acc.1.1 ++ r.1.1, acc.1.2 ++ r.1.2), acc.2 ++ r.2))
        (([], []), []))
  | _, _ => .error .notFitted

end MFE

/-- Input to `fit`/`check_data`: an array-like (list or `np.ndarray`,
recorded by the shape `np.array` would give it) or anything else. -/
inductive PyInput where
  | arrLike (shape : List Nat)
  | notArr
deriving DecidableEq, Repr

/-- Errors of `_internal.check_data`. -/
inductive DataErr where
  | typeErr
  | valueErr
deriving DecidableEq, Repr

/-- `_internal.check_data`: type-check both inputs, flatten `y`, reshape a
1-D `X` to a single column (`X.reshape(*X.shape, -1)`), and require the
row counts to match.  (A 0-d `X` would hit an `IndexError` at
`X.shape[0]` in the source; the data model of the engine only ever
supplies arrays of dimension at least one, which the theorems assume.) -/
def check_data (X y : PyInput) : Except DataErr (List Nat × List Nat) :=
  match X, y with
  | .notArr, _ => .error .typeErr
  | _, .notArr => .error .typeErr
  | .arrLike sx, .arrLike sy =>
      let syf := [sy.prod]
      let sxr := if sx.length = 1 then sx ++ [1] else sx
      if sxr.headD 0 ≠ syf.headD 0 then .error .valueErr
      else .ok (sxr, syf)

namespace MFE

/-- `MFE.fit`: validate the data and store the fit context.  (The
`splits` iterability check of the source is not modelled: `splits` is
already typed here.) -/
def fit (s : MFEState) (X y : PyInput) (splits : Option PyVal) :
    Except DataErr MFEState :=
  match check_data X y with
  | .error e => .error e
  | .ok (sx, sy) => .ok { s with X := some sx, y := some sy, splits := splits }

end MFE

/-- A `groups`/`features`/`summary` selection argument: a single string or
an iterable of strings (`t.Union[str, t.Iterable[str]]`). -/
inductive Sel where
  | str (s : String)
  | strList (l : List String)
deriving DecidableEq, Repr

/-- Python falsiness of a selection (`if not groups: ...`). -/
def selFalsy : Sel → Bool
  | .str s => s = ""
  | .strList l => l = []

/-- `_internal.VALID_GROUPS`, in declaration order. -/
def VALID_GROUPS : List String :=
  ["landmarking", "general", "statistical", "model-based", "info-theory"]

/-- `_internal._check_value_in_group(value, group, wildcard)`: returns the
pair `(in_group, not_in_group)`.  A single string is lower-cased and
either matches the wildcard (case-insensitively, yielding the whole
group), is a member, or is unknown; an iterable is lower-cased into a set
and intersected with / subtracted from the group. -/
def check_value_in_group (value : Sel) (group : List String)
    (wildcard : String := "all") : List String × List String :=
  match value with
  | .str v =>
      let v := strLower v
      if v = strLower wildcard then (group, [])
      else if v ∈ group then ([v], [])
      else ([], [v])
  | .strList vs =>
      let value_set := pySet (vs.map strLower)
      if strLower wildcard ∈ value_set then (group, [])
      else (value_set.filter (fun x => x ∈ group),
            value_set.filter (fun x => x ∉ group))

/-- `_internal.process_groups`: empty selection and unknown names are
fatal (`ValueError`); otherwise the matched group names are returned. -/
def process_groups (groups : Sel) : Except String (List String) :=
  if selFalsy groups then .error "Groups can not be None nor empty"
  else
    let r := check_value_in_group groups VALID_GROUPS
    if r.2 ≠ [] then .error "Unknown groups"
    else .ok r.1

/-- `_internal.process_summary`, parametrized by the summary provider.

Modelled from the spec: the provider `_summary.SUMMARY_METHODS` (the
registry of summary routines) is not under `src/`; per the spec it is an
external mapping from summary names (the spec names `mean`, `sd`,
`quantiles`, `histogram`) to reducers, which this model abstracts as an
association list handed in as an argument. -/
def process_summary (summaryMethods : List (String × SumCallable))
    (summary : Sel) :
    Except String (List String × List (String × SumCallable × List String)) :=
  if selFalsy summary then .error "Summary can not be None nor empty"
  else
    let valid := dictKeys summaryMethods
    let r := check_value_in_group summary valid
    if r.2 ≠ [] then .error "Unknown summary"
    else
      .ok (r.1,
        r.1.filterMap (fun f =>
          (List.lookup f summaryMethods).map (fun cb => (f, cb, cb.args))))

/-- The reflection-discovered registry `_internal._get_all_ft_mtds()`:
a mapping from group name to that group's `(method name, callable)`
list, passed in as the environment (the topical modules are external
collaborators discovered by naming convention). -/
abbrev FtMtdsDict := List (String × List (String × PyCallable))

/-- `_internal._filter_mtd_dict`: restrict the registry to the given
groups and flatten.  `tuple(set(groups).intersection(keys))` is modelled
with `pySet` + membership filter; `operator.itemgetter` fetches each
group's list (the single-group special case of the source only re-wraps
the tuple).  An empty/absent `groups` is falsy and means "no filter". -/
def filter_mtd_dict (ft_mtds_dict : FtMtdsDict)
    (groups : Option (List String)) : List (String × PyCallable) :=
  match groups with
  | some gl =>
      if gl = [] then ft_mtds_dict.flatMap Prod.snd
      else
        let gs := (pySet gl).filter (fun g => g ∈ dictKeys ft_mtds_dict)
        gs.flatMap (fun g => (List.lookup g ft_mtds_dict).getD [])
  | none => ft_mtds_dict.flatMap Prod.snd

/-- `_internal._preprocess_ft_arg`: lower-case a single string, or
deduplicate (`set`) then lower-case an iterable. -/
def preprocess_ft_arg : Sel → Sel
  | .str s => .str (strLower s)
  | .strList l => .strList ((pySet l).map strLower)

/-- `_internal._check_ft_wildcard`: for a single-string selection equal to
the wildcard (case-insensitively), return every method of the filtered
registry — its bare names and its extended `(name, callable, args)`
tuples — in registry order; otherwise `None`. -/
def check_ft_wildcard (features : Sel)
    (ft_methods : List (String × PyCallable)) (wildcard : String := "all") :
    Option (List String × List (String × PyCallable × List String)) :=
  match features with
  | .str f =>
      if strLower f = strLower wildcard then
        some (ft_methods.map (fun m => remove_mtd_pfx m.1),
              ft_methods.map (fun m => (m.1, m.2, m.2.args)))
      else none
  | .strList _ => none

/-- The explicit-collection matching loop of `_internal.process_features`:
walk the filtered registry in order; a method whose bare name is in the
still-unconsumed request list is kept and its name consumed
(`processed_ft.remove`).  Returns `((available names, extended tuples),
leftover unconsumed names)`. -/
def processFeaturesLoop (processed : List String)
    (mtds : List (String × PyCallable)) :
    (List String × List (String × PyCallable × List String)) × List String :=
  match mtds with
  | [] => (([], []), processed)
  | m :: rest =>
      let bare := remove_mtd_pfx m.1
      if bare ∈ processed then
        let r := processFeaturesLoop (processed.erase bare) rest
        ((bare :: r.1.1, (m.1, m.2, m.2.args) :: r.1.2), r.2)
      else processFeaturesLoop processed rest

/-- The single-string fast path of `_internal.process_features`: return
immediately on the first registry method whose bare name equals the
requested string. -/
def processFeaturesSingle (pf : String)
    (mtds : List (String × PyCallable)) :
    Option (List String × List (String × PyCallable × List String)) :=
  match mtds with
  | [] => none
  | m :: rest =>
      if remove_mtd_pfx m.1 = pf then
        some ([remove_mtd_pfx m.1], [(m.1, m.2, m.2.args)])
      else processFeaturesSingle pf rest

/-- Warning text of `_internal._process_features_warnings`. -/
def ftWarnMsg (n : String) : String := "Unknown feature " ++ n

/-- `_internal.process_features`: empty selection short-circuits; a
wildcard string selects everything; otherwise explicit matching runs and
every unconsumed requested name yields one warning (unless suppressed).
Returns `((names, extended tuples), warnings)`. -/
def process_features (features : Sel) (ft_mtds_dict : FtMtdsDict)
    (groups : Option (List String)) (wildcard : String)
    (suppress_warnings : Bool) :
    (List String × List (String × PyCallable × List String)) × List String :=
  if selFalsy features then (([], []), [])
  else
    let processed_ft := preprocess_ft_arg features
    let filtered := filter_mtd_dict ft_mtds_dict groups
    match check_ft_wildcard processed_ft filtered wildcard with
    | some r => (r, [])
    | none =>
        match processed_ft with
        | .str pf =>
            match processFeaturesSingle pf filtered with
            | some r => (r, [])
            | none => (([], []), if suppress_warnings then [] else [ftWarnMsg pf])
        | .strList pl =>
            let r := processFeaturesLoop pl filtered
            (r.1, if suppress_warnings then [] else r.2.map ftWarnMsg)

/-- The selection triple resolved by `MFE.__init__`. -/
structure ModelCfg where
  groups : List String
  features : List String
  ftMtdMetadata : List (String × PyCallable × List String)
  summaryNames : List String
  summary : List (String × SumCallable × List String)

namespace MFE

/-- `MFE.__init__`: process groups, features and summary in order.
Returns the resolved configuration plus the feature-selection warnings. -/
def mk (summaryMethods : List (String × SumCallable))
    (ft_mtds_dict : FtMtdsDict) (groups features summary : Sel)
    (wildcard : String) (suppress_warnings : Bool) :
    Except String (ModelCfg × List String) :=
  match process_groups groups with
  | .error e => .error e
  | .ok gs =>
      let fr := process_features features ft_mtds_dict (some gs) wildcard
        suppress_warnings
      match process_summary summaryMethods summary with
      | .error e => .error e
      | .ok (sn, sm) =>
          .ok ({ groups := gs, features := fr.1.1, ftMtdMetadata := fr.1.2,
                 summaryNames := sn, summary := sm }, fr.2)

/-- A freshly constructed engine: no fitted data yet. -/
def initState (cfg : ModelCfg) : MFEState :=
  { X := none, y := none, splits := none,
    ftMtdMetadata := cfg.ftMtdMetadata, summary := cfg.summary }

end MFE

/-- `MFEClustering.precompute_group_distances` (guard logic): the body
runs only when `y` is present and the three output keys are not already
all in the received kwargs.  The opaque numeric results of the helper
computations are parameters; the boolean records whether the computing
body executed. -/
def precompute_group_distances (N : PyVal) (y : Option PyVal)
    (dist_metric : String) (classes : Option PyVal)
    (pairwiseNormInterclassDist pairwiseIntraclassDists intraclassDists : PyVal)
    (kwargs : List String) : List (String × PyVal) × Bool :=
  if y.isSome && !(["pairwise_norm_interclass_dist",
        "pairwise_intraclass_dists",
        "intraclass_dists"].all (fun k => kwargs.contains k)) then
    ([("pairwise_norm_interclass_dist", pairwiseNormInterclassDist),
      ("pairwise_intraclass_dists", pairwiseIntraclassDists),
      ("intraclass_dists", intraclassDists)], true)
  else ([], false)

/-- `MFEComplexity.precompute_pca_tx` (guard logic): the body runs only
when `N` is present and none of `m`, `m_`, `n` is already in the received
kwargs.  The PCA dimensionality is an opaque parameter; `m` and `n` come
from the shape of `N`. -/
def precompute_pca_tx (pca_m_ : Nat) (N : Option (List Nat))
    (kwargs : List String) : List (String × PyVal) × Bool :=
  match N with
  | some shape =>
      if !(kwargs.contains "m") && !(kwargs.contains "m_") &&
          !(kwargs.contains "n") then
        ([("m_", .pyInt pca_m_), ("m", .pyInt (shape.getD 1 0)),
          ("n", .pyInt (shape.getD 0 0))], true)
      else ([], false)
  | none => ([], false)

/-- Modelled from the spec: a concrete two-routine summary provider
standing in for the external `_summary.SUMMARY_METHODS` registry (not
under `src/`; the spec names `mean` and `sd` as the default summary
selection), registered in the order `mean`, `sd`.  The numeric behaviour
of the reducers is irrelevant here and is stubbed. -/
def cxSummaryMethods : List (String × SumCallable) :=
  [("mean", ⟨[], fun _ _ => some (.scal (.pyInt 0))⟩),
   ("sd", ⟨[], fun _ _ => some (.scal (.pyInt 1))⟩)]

/-- A one-group, one-feature registry used to observe downstream output
of the two construction routes. -/
def cxFtMtdsDict : FtMtdsDict :=
  [("general", [("ft_v", ⟨["X", "y", "splits"], fun _ => .vect [.pyInt 5]⟩)])]

/-- End-to-end run: construct the engine with the given summary
selection (groups `general`, features wildcard), fit a 1-by-2 dataset,
extract, and return the metafeature names. -/
def cxRunNames (summarySel : Sel) : Option (List String) :=
  match MFE.mk cxSummaryMethods cxFtMtdsDict (.str "general") (.str "all")
      summarySel "all" false with
  | .error _ => none
  | .ok (cfg, _) =>
      match MFE.fit (MFE.initState cfg) (.arrLike [1, 2]) (.arrLike [1]) none with
      | .error _ => none
      | .ok st =>
          match MFE.extract st true false (fun _ => none) with
          | .error _ => none
          | .ok r => some r.1.1

/-! ### Association-list (Python dict) lemmas -/

theorem lookup_eq_none_of_not_mem_keys {α : Type} {d : List (String × α)}
    {k : String} (h : k ∉ dictKeys d) : List.lookup k d = none := by
  induction d with
  | nil => rfl
  | cons p ds ih =>
      simp only [dictKeys, List.map_cons, List.mem_cons, not_or] at h
      simp [List.lookup, beq_eq_false_iff_ne.mpr h.1, ih h.2]

theorem lookup_map_overwrite {α : Type} (d : List (String × α))
    (k' : String) (v : α) (k : String) :
    List.lookup k (d.map (fun p => if p.1 = k' then (k', v) else p)) =
      if k = k' ∧ k' ∈ dictKeys d then some v else List.lookup k d := by
  induction d with
  | nil => simp [dictKeys]
  | cons p ds ih =>
      simp only [List.map_cons]
      by_cases hp : p.1 = k'
      · rw [if_pos hp]
        by_cases hk : k = k'
        · have hcond : k = k' ∧ k' ∈ dictKeys (p :: ds) :=
            ⟨hk, by
              simp only [dictKeys, List.map_cons, List.mem_cons]
              exact Or.inl hp.symm⟩
          rw [if_pos hcond]
          simp [List.lookup, hk]
        · rw [if_neg (fun hc => hk hc.1)]
          have hkp : ¬(k = p.1) := fun hc => hk (hc.trans hp)
          simp only [List.lookup, beq_eq_false_iff_ne.mpr hk,
            beq_eq_false_iff_ne.mpr hkp, ih]
          rw [if_neg (fun hc => hk hc.1)]
      · rw [if_neg hp]
        by_cases hk : k = p.1
        · have hcond : ¬(k = k' ∧ k' ∈ dictKeys (p :: ds)) := by
            rintro ⟨h1, _⟩
            exact hp ((hk.symm.trans h1 : p.1 = k'))
          rw [if_neg hcond]
          simp [List.lookup, hk]
        · have hmem : (k' ∈ dictKeys (p :: ds)) ↔ (k' ∈ dictKeys ds) := by
            simp only [dictKeys, List.map_cons, List.mem_cons]
            exact ⟨fun h => h.resolve_left (fun hh => hp hh.symm), Or.inr⟩
          simp only [List.lookup, beq_eq_false_iff_ne.mpr hk, ih, hmem]

theorem lookup_append_single {α : Type} {d : List (String × α)}
    {k' : String} (v : α) (k : String) (h : k' ∉ dictKeys d) :
    List.lookup k (d ++ [(k', v)]) =
      if k = k' then some v else List.lookup k d := by
  induction d with
  | nil =>
      by_cases hk : k = k'
      · simp [List.lookup, hk]
      · simp [List.lookup, beq_eq_false_iff_ne.mpr hk, hk]
  | cons p ds ih =>
      simp only [dictKeys, List.map_cons, List.mem_cons, not_or] at h
      by_cases hk : k = p.1
      · have hkk : ¬(k = k') := fun hc => h.1 (hc.symm.trans hk)
        rw [if_neg hkk]
        simp [List.lookup, hk]
      · simp [List.lookup, beq_eq_false_iff_ne.mpr hk, ih h.2]

theorem lookup_dictUpdate {α : Type} (d : List (String × α)) (k' : String)
    (v : α) (k : String) :
    List.lookup k (dictUpdate d k' v) =
      if k = k' then some v else List.lookup k d := by
  unfold dictUpdate
  by_cases hmem : k' ∈ dictKeys d
  · simp [hmem, lookup_map_overwrite]
  · simp [hmem, lookup_append_single v k hmem]

theorem lookup_dictMerge {α : Type} (b a : List (String × α))
    (hb : (dictKeys b).Nodup) (k : String) :
    List.lookup k (dictMerge a b) =
      match List.lookup k b with
      | some v => some v
      | none => List.lookup k a := by
  induction b generalizing a with
  | nil => simp [dictMerge]
  | cons p bs ih =>
      simp only [dictKeys, List.map_cons, List.nodup_cons] at hb
      have step : dictMerge a (p :: bs) = dictMerge (dictUpdate a p.1 p.2) bs := rfl
      rw [step, ih _ hb.2]
      by_cases hk : k = p.1
      · have hnone : List.lookup k bs = none := by
          rw [hk]
          exact lookup_eq_none_of_not_mem_keys hb.1
        have hcons : List.lookup k (p :: bs) = some p.2 := by
          simp [List.lookup, hk]
        simp [hnone, hcons, lookup_dictUpdate, if_pos hk]
      · have hcons : List.lookup k (p :: bs) = List.lookup k bs := by
          simp [List.lookup, beq_eq_false_iff_ne.mpr hk]
        rw [hcons]
        cases hbs : List.lookup k bs with
        | some v => rfl
        | none => simp [lookup_dictUpdate, hk]

theorem lookup_filter_mem {α : Type} (l : List (String × α))
    (args : List String) (k : String) :
    List.lookup k (l.filter (fun p => p.1 ∈ args)) =
      if k ∈ args then List.lookup k l else none := by
  induction l with
  | nil => simp
  | cons p ds ih =>
      by_cases hp : p.1 ∈ args
      · by_cases hk : k = p.1
        · subst hk
          simp [List.filter_cons, hp, List.lookup]
        · simp [List.filter_cons, hp, List.lookup,
            beq_eq_false_iff_ne.mpr hk, ih]
      · by_cases hk : k = p.1
        · subst hk
          simp [List.filter_cons, hp, ih, List.lookup]
        · simp [List.filter_cons, hp, ih, List.lookup,
            beq_eq_false_iff_ne.mpr hk]

/-! ### Claim C1 — argument-resolver precedence -/

/-- C1 counterexample: the claim says the user-supplied override wins when
a declared parameter name appears both in the user overrides and in the
fit-context/cache contributions.  On the code, `combined_args =
{**user_custom_args, **inner_custom_args}` lets the inner contribution
overwrite the user override: with declared parameter `X`, user value
`{X: 1}` and inner value `{X: 2}`, the resolver binds `X` to `2`, not to
the user-supplied `1`. -/
theorem C1_counterexample :
    List.lookup "X" (build_mtd_args "mtd" ["X"] (some [("X", PyVal.pyInt 2)])
        (some [("X", PyVal.pyInt 1)]) false).1 = some (PyVal.pyInt 2) ∧
    List.lookup "X" (build_mtd_args "mtd" ["X"] (some [("X", PyVal.pyInt 2)])
        (some [("X", PyVal.pyInt 1)]) false).1 ≠ some (PyVal.pyInt 1) := by
  constructor
  · rfl
  · decide

/-- C1 (amended): in the kwargs built by `_build_mtd_args`, a declared
parameter name present in both the user overrides and the inner
(fit-context/cache) contributions is bound to the inner value — the inner
contribution wins over the user override; a declared name present only in
the user overrides is bound to the user value; and every key of the
returned kwargs dict is a member of the routine's declared parameter
list (unrecognized keys, user-supplied or not, are never forwarded). -/
theorem C1_build_mtd_args_precedence (method_name : String)
    (method_args : List String) (inner user : Dict)
    (hi : (dictKeys inner).Nodup) (sw : Bool) :
    (∀ p ∈ (build_mtd_args method_name method_args (some inner) (some user) sw).1,
        p.1 ∈ method_args) ∧
    (∀ k, k ∈ dictKeys inner → k ∈ method_args →
      List.lookup k (build_mtd_args method_name method_args (some inner)
          (some user) sw).1 = List.lookup k inner) ∧
    (∀ k, k ∉ dictKeys inner → k ∈ method_args →
      List.lookup k (build_mtd_args method_name method_args (some inner)
          (some user) sw).1 = List.lookup k user) ∧
    (∀ k, k ∉ method_args →
      List.lookup k (build_mtd_args method_name method_args (some inner)
          (some user) sw).1 = none) := by
  refine ⟨?_, ?_, ?_, ?_⟩
  · intro p hp
    simp only [build_mtd_args, Option.getD_some, List.mem_filter,
      decide_eq_true_eq] at hp
    exact hp.2
  · intro k hk hka
    show List.lookup k ((dictMerge user inner).filter
      (fun p => p.1 ∈ method_args)) = List.lookup k inner
    rw [lookup_filter_mem, if_pos hka, lookup_dictMerge inner user hi k]
    obtain ⟨v, hv⟩ : ∃ v, List.lookup k inner = some v := by
      induction inner with
      | nil => simp [dictKeys] at hk
      | cons p ds ih =>
          by_cases hkp : k = p.1
          · exact ⟨p.2, by simp [List.lookup, hkp]⟩
          · simp only [dictKeys, List.map_cons, List.mem_cons] at hk
            rcases hk with h | h
            · exact absurd h hkp
            · obtain ⟨v, hv⟩ := ih (by
                simp only [dictKeys, List.map_cons, List.nodup_cons] at hi
                exact hi.2) h
              exact ⟨v, by simp [List.lookup, beq_eq_false_iff_ne.mpr hkp, hv]⟩
    simp [hv]
  · intro k hk hka
    show List.lookup k ((dictMerge user inner).filter
      (fun p => p.1 ∈ method_args)) = List.lookup k user
    rw [lookup_filter_mem, if_pos hka, lookup_dictMerge inner user hi k,
      lookup_eq_none_of_not_mem_keys hk]
  · intro k hk
    show List.lookup k ((dictMerge user inner).filter
      (fun p => p.1 ∈ method_args)) = none
    rw [lookup_filter_mem, if_neg hk]

/-- C1 witness: at declared parameters `["X", "a"]`, inner `{X: 2}` and
user `{a: 7, bad: 9}`, the resolver forwards the inner `X`, the user `a`
and drops the undeclared `bad`. -/
theorem C1_witness :
    List.lookup "X" (build_mtd_args "mtd" ["X", "a"]
        (some [("X", PyVal.pyInt 2)])
        (some [("a", PyVal.pyInt 7), ("bad", PyVal.pyInt 9)]) false).1 =
      some (PyVal.pyInt 2) ∧
    List.lookup "a" (build_mtd_args "mtd" ["X", "a"]
        (some [("X", PyVal.pyInt 2)])
        (some [("a", PyVal.pyInt 7), ("bad", PyVal.pyInt 9)]) false).1 =
      some (PyVal.pyInt 7) ∧
    List.lookup "bad" (build_mtd_args "mtd" ["X", "a"]
        (some [("X", PyVal.pyInt 2)])
        (some [("a", PyVal.pyInt 7), ("bad", PyVal.pyInt 9)]) false).1 =
      none := by
  have h := C1_build_mtd_args_precedence "mtd" ["X", "a"]
    [("X", PyVal.pyInt 2)] [("a", PyVal.pyInt 7), ("bad", PyVal.pyInt 9)]
    (by decide) false
  exact ⟨(h.2.1 "X" (by decide) (by decide)).trans (by decide),
    (h.2.2.1 "a" (by decide) (by decide)).trans (by decide),
    h.2.2.2 "bad" (by decide)⟩

/-! ### Extraction-loop lemmas -/

theorem foldl_append3 {α β γ μ : Type} (g : μ → (List α × List β) × List γ)
    (l : List μ) (a : List α) (b : List β) (c : List γ) :
    l.foldl (fun acc x =>
        ((acc.1.1 ++ (g x).1.1, acc.1.2 ++ (g x).1.2), acc.2 ++ (g x).2))
      ((a, b), c) =
      ((a ++ l.flatMap (fun x => (g x).1.1),
        b ++ l.flatMap (fun x => (g x).1.2)),
       c ++ l.flatMap (fun x => (g x).2)) := by
  induction l generalizing a b c with
  | nil => simp
  | cons x xs ih => simp [ih, List.flatMap_cons]

theorem flatMap_singleton {α β : Type} (l : List α) (f : α → β) :
    l.flatMap (fun x => [f x]) = l.map f := by
  induction l with
  | nil => rfl
  | cons x xs ih => simp [List.flatMap_cons, ih]

theorem flatMap_length_congr {α β γ : Type} (l : List α)
    (f : α → List β) (g : α → List γ)
    (h : ∀ x ∈ l, (f x).length = (g x).length) :
    (l.flatMap f).length = (l.flatMap g).length := by
  induction l with
  | nil => rfl
  | cons x xs ih =>
      simp only [List.flatMap_cons, List.length_append]
      rw [h x (List.mem_cons_self x xs),
        ih (fun y hy => h y (List.mem_cons_of_mem x hy))]

/-- The Python loop of `_call_summary_methods` unrolled: one dot-suffixed
name and one summarized value per selected summary routine, in selection
order. -/
theorem callSummaryMethods_eq (summary : List (String × SumCallable × List String))
    (feature_values : List PyVal) (feature_name : String)
    (remove_nan suppress_warnings : Bool) (kwargs : String → Option Dict) :
    MFE.callSummaryMethods summary feature_values feature_name remove_nan
        suppress_warnings kwargs =
      ((summary.map (fun sm => feature_name ++ "." ++ sm.1),
        summary.map (fun sm => MFE.summarize sm.2.1 feature_values
          (some (build_mtd_args sm.1 sm.2.2 none (kwargs sm.1)
            suppress_warnings).1) remove_nan)),
       summary.flatMap (fun sm =>
         (MFE.csmStep feature_values feature_name remove_nan suppress_warnings
           kwargs sm).2)) := by
  have h := foldl_append3
    (MFE.csmStep feature_values feature_name remove_nan suppress_warnings kwargs)
    summary [] [] []
  simp only [List.nil_append] at h
  unfold MFE.callSummaryMethods
  rw [h]
  simp only [MFE.csmStep, flatMap_singleton]

/-- The extraction loop of `MFE.extract` unrolled into per-feature
contributions, in selection order. -/
theorem extract_eq (s : MFEState) (sx sy : List Nat)
    (hX : s.X = some sx) (hy : s.y = some sy)
    (remove_nan suppress_warnings : Bool) (kwargs : String → Option Dict) :
    MFE.extract s remove_nan suppress_warnings kwargs =
      .ok ((s.ftMtdMetadata.flatMap (fun m =>
              (MFE.extractFeature (MFE.customArgsFt sx sy s.splits) s.summary
                remove_nan suppress_warnings kwargs m).1.1),
            s.ftMtdMetadata.flatMap (fun m =>
              (MFE.extractFeature (MFE.customArgsFt sx sy s.splits) s.summary
                remove_nan suppress_warnings kwargs m).1.2)),
           s.ftMtdMetadata.flatMap (fun m =>
              (MFE.extractFeature (MFE.customArgsFt sx sy s.splits) s.summary
                remove_nan suppress_warnings kwargs m).2)) := by
  have h := foldl_append3
    (fun m => MFE.extractFeature (MFE.customArgsFt sx sy s.splits) s.summary
      remove_nan suppress_warnings kwargs m)
    s.ftMtdMetadata [] [] []
  simp only [List.nil_append] at h
  unfold MFE.extract
  rw [hX, hy]
  simp only [h]

/-- Each feature contributes equally many names and values: one of each
for a scalar result, one of each per selected summary for a vector
result. -/
theorem extractFeature_len (inner : Dict)
    (summary : List (String × SumCallable × List String))
    (remove_nan suppress_warnings : Bool) (kwargs : String → Option Dict)
    (m : String × PyCallable × List String) :
    (MFE.extractFeature inner summary remove_nan suppress_warnings kwargs m).1.1.length =
      (MFE.extractFeature inner summary remove_nan suppress_warnings kwargs m).1.2.length := by
  unfold MFE.extractFeature
  cases h : (MFE.getFeatValue m.1
      (MFE.ftArgsPack inner kwargs suppress_warnings m) m.2.1
      suppress_warnings).1 with
  | scalarV v => simp [h]
  | vectorV vs => simp [h, callSummaryMethods_eq]

/-! ### Claim C2 — extract is total on fitted states, equal-length outputs -/

/-- C2: on any fitted engine state (fit succeeded, so `X` and `y` are
stored), every call to `extract` returns normally — no exception escapes
the per-routine extraction loop, whatever the feature and summary
callables do — and the returned `(names, values)` sequences have equal
length. -/
theorem C2_extract_total_equal_lengths (s : MFEState) (sx sy : List Nat)
    (hX : s.X = some sx) (hy : s.y = some sy)
    (remove_nan suppress_warnings : Bool) (kwargs : String → Option Dict) :
    ∃ names vals warns,
      MFE.extract s remove_nan suppress_warnings kwargs =
        .ok ((names, vals), warns) ∧ names.length = vals.length := by
  refine ⟨_, _, _, extract_eq s sx sy hX hy remove_nan suppress_warnings kwargs, ?_⟩
  exact flatMap_length_congr s.ftMtdMetadata _ _
    (fun m _ => extractFeature_len (MFE.customArgsFt sx sy s.splits) s.summary
      remove_nan suppress_warnings kwargs m)

/-- C2 witness: a concrete fitted engine with one well-behaved scalar
routine, one vector routine and one routine that raises `TypeError`
yields equal-length name and value lists. -/
theorem C2_witness :
    ∃ names vals warns,
      MFE.extract
        { X := some [2, 2], y := some [2], splits := none,
          ftMtdMetadata :=
            [("ft_ok", ⟨["X"], fun _ => .scal (.pyInt 3)⟩, ["X"]),
             ("ft_vec", ⟨["X"], fun _ => .vect [.pyInt 1, .pyNan]⟩, ["X"]),
             ("ft_bad", ⟨["X"], fun _ => .tyErr⟩, ["X"])],
          summary := [("mean", ⟨[], fun _ _ => some (.scal (.pyInt 0))⟩, [])] }
        true false (fun _ => none) = .ok ((names, vals), warns) ∧
      names.length = vals.length :=
  C2_extract_total_equal_lengths _ [2, 2] [2] rfl rfl true false (fun _ => none)

theorem flatMap_congr {α β : Type} (l : List α) (f g : α → List β)
    (h : ∀ x ∈ l, f x = g x) : l.flatMap f = l.flatMap g := by
  induction l with
  | nil => rfl
  | cons x xs ih =>
      simp only [List.flatMap_cons]
      rw [h x (List.mem_cons_self x xs),
        ih (fun y hy => h y (List.mem_cons_of_mem x hy))]

/-! ### Claim C3 — output shape and naming -/

/-- C3: during `extract`, a feature routine whose (post-`_get_feat_value`)
result is a scalar contributes exactly one output named by the bare
feature name, with no summary suffix; one whose result is a
sequence/array contributes exactly one output per selected summary
routine, in selection order, named `feature.summary`; and features
contribute in selection (registry) order. -/
theorem C3_scalar_vector_naming (s : MFEState) (sx sy : List Nat)
    (hX : s.X = some sx) (hy : s.y = some sy)
    (remove_nan suppress_warnings : Bool) (kwargs : String → Option Dict) :
    ∃ warns,
      MFE.extract s remove_nan suppress_warnings kwargs =
        .ok ((s.ftMtdMetadata.flatMap (fun m =>
                match (MFE.getFeatValue m.1
                    (MFE.ftArgsPack (MFE.customArgsFt sx sy s.splits) kwargs
                      suppress_warnings m) m.2.1 suppress_warnings).1 with
                | .scalarV _ => [remove_mtd_pfx m.1]
                | .vectorV _ => s.summary.map
                    (fun sm => remove_mtd_pfx m.1 ++ "." ++ sm.1)),
              s.ftMtdMetadata.flatMap (fun m =>
                match (MFE.getFeatValue m.1
                    (MFE.ftArgsPack (MFE.customArgsFt sx sy s.splits) kwargs
                      suppress_warnings m) m.2.1 suppress_warnings).1 with
                | .scalarV v => [MetaVal.scal v]
                | .vectorV vs => s.summary.map
                    (fun sm => MFE.summarize sm.2.1 vs
                      (some (build_mtd_args sm.1 sm.2.2 none (kwargs sm.1)
                        suppress_warnings).1) remove_nan))),
             warns) := by
  have hA : s.ftMtdMetadata.flatMap (fun m =>
      (MFE.extractFeature (MFE.customArgsFt sx sy s.splits) s.summary
        remove_nan suppress_warnings kwargs m).1.1) =
      s.ftMtdMetadata.flatMap (fun m =>
        match (MFE.getFeatValue m.1
            (MFE.ftArgsPack (MFE.customArgsFt sx sy s.splits) kwargs
              suppress_warnings m) m.2.1 suppress_warnings).1 with
        | .scalarV _ => [remove_mtd_pfx m.1]
        | .vectorV _ => s.summary.map
            (fun sm => remove_mtd_pfx m.1 ++ "." ++ sm.1)) := by
    refine flatMap_congr _ _ _ (fun m _ => ?_)
    unfold MFE.extractFeature
    cases h : (MFE.getFeatValue m.1
        (MFE.ftArgsPack (MFE.customArgsFt sx sy s.splits) kwargs
          suppress_warnings m) m.2.1 suppress_warnings).1 with
    | scalarV v => simp [h]
    | vectorV vs => simp [h, callSummaryMethods_eq]
  have hB : s.ftMtdMetadata.flatMap (fun m =>
      (MFE.extractFeature (MFE.customArgsFt sx sy s.splits) s.summary
        remove_nan suppress_warnings kwargs m).1.2) =
      s.ftMtdMetadata.flatMap (fun m =>
        match (MFE.getFeatValue m.1
            (MFE.ftArgsPack (MFE.customArgsFt sx sy s.splits) kwargs
              suppress_warnings m) m.2.1 suppress_warnings).1 with
        | .scalarV v => [MetaVal.scal v]
        | .vectorV vs => s.summary.map
            (fun sm => MFE.summarize sm.2.1 vs
              (some (build_mtd_args sm.1 sm.2.2 none (kwargs sm.1)
                suppress_warnings).1) remove_nan)) := by
    refine flatMap_congr _ _ _ (fun m _ => ?_)
    unfold MFE.extractFeature
    cases h : (MFE.getFeatValue m.1
        (MFE.ftArgsPack (MFE.customArgsFt sx sy s.splits) kwargs
          suppress_warnings m) m.2.1 suppress_warnings).1 with
    | scalarV v => simp [h]
    | vectorV vs => simp [h, callSummaryMethods_eq]
  refine ⟨s.ftMtdMetadata.flatMap (fun m =>
    (MFE.extractFeature (MFE.customArgsFt sx sy s.splits) s.summary
      remove_nan suppress_warnings kwargs m).2), ?_⟩
  rw [extract_eq s sx sy hX hy remove_nan suppress_warnings kwargs, hA, hB]

/-- C3 witness: one scalar routine and one vector routine with two
selected summaries yield the names `["sc", "vec.mean", "vec.sd"]`. -/
theorem C3_witness :
    ∃ warns,
      MFE.extract
        { X := some [2, 2], y := some [2], splits := none,
          ftMtdMetadata :=
            [("ft_sc", ⟨["X"], fun _ => .scal (.pyInt 3)⟩, ["X"]),
             ("ft_vec", ⟨["X"], fun _ => .vect [.pyInt 1, .pyInt 2]⟩, ["X"])],
          summary :=
            [("mean", ⟨[], fun _ _ => some (.scal (.pyInt 0))⟩, []),
             ("sd", ⟨[], fun _ _ => some (.scal (.pyInt 1))⟩, [])] }
        true false (fun _ => none) =
      .ok ((["sc", "vec.mean", "vec.sd"],
            [MetaVal.scal (.pyInt 3), MetaVal.scal (.pyInt 0),
             MetaVal.scal (.pyInt 1)]), warns) := by
  obtain ⟨warns, hw⟩ := C3_scalar_vector_naming
    { X := some [2, 2], y := some [2], splits := none,
      ftMtdMetadata :=
        [("ft_sc", ⟨["X"], fun _ => .scal (.pyInt 3)⟩, ["X"]),
         ("ft_vec", ⟨["X"], fun _ => .vect [.pyInt 1, .pyInt 2]⟩, ["X"])],
      summary :=
        [("mean", ⟨[], fun _ _ => some (.scal (.pyInt 0))⟩, []),
         ("sd", ⟨[], fun _ _ => some (.scal (.pyInt 1))⟩, [])] }
    [2, 2] [2] rfl rfl true false (fun _ => none)
  exact ⟨warns, hw.trans
    (congrArg (fun z => Except.ok (z, warns)) (by decide))⟩

/-! ### Claim C4 — per-routine failures become NaN, never propagate -/

/-- C4: a feature callable that raises a parameter/type error is caught
by `_get_feat_value` and converted to the scalar NaN sentinel, with a
warning exactly when warnings are not suppressed; the failing feature
contributes the single output `(bare name, NaN)`; a summary callable that
raises is caught by `_summarize` and yields the NaN sentinel for that one
output (and the NaN-check warning fires when not suppressed); and
`extract` on a fitted state returns normally regardless. -/
theorem C4_failures_to_nan :
    (∀ (name : String) (args : Dict) (cb : PyCallable) (sw : Bool),
      cb.run args = .tyErr →
      (MFE.getFeatValue name args cb sw).1 = .scalarV .pyNan ∧
      ((MFE.getFeatValue name args cb sw).2 ≠ [] ↔ sw = false)) ∧
    (∀ (inner : Dict) (summary : List (String × SumCallable × List String))
        (remove_nan sw : Bool) (kwargs : String → Option Dict)
        (m : String × PyCallable × List String),
      m.2.1.run (MFE.ftArgsPack inner kwargs sw m) = .tyErr →
      (MFE.extractFeature inner summary remove_nan sw kwargs m).1 =
        ([remove_mtd_pfx m.1], [MetaVal.scal .pyNan])) ∧
    (∀ (cb : SumCallable) (fv : List PyVal) (pack : Option Dict) (rn : Bool),
      cb.run (if rn then (numericFilter fv).map toFloat32 else fv)
          (pack.getD []) = none →
      MFE.summarize cb fv pack rn = .scal .pyNan) ∧
    (∀ f n, MFE.checkSummaryWarnings (MetaVal.scal .pyNan) f n ≠ []) ∧
    (∀ (s : MFEState) (sx sy : List Nat) (rn sw : Bool)
        (kw : String → Option Dict),
      s.X = some sx → s.y = some sy →
      (MFE.extract s rn sw kw).isOk = true) := by
  refine ⟨?_, ?_, ?_, ?_, ?_⟩
  · intro name args cb sw h
    unfold MFE.getFeatValue
    rw [h]
    cases sw <;> simp
  · intro inner summary remove_nan sw kwargs m h
    have hg : (MFE.getFeatValue m.1 (MFE.ftArgsPack inner kwargs sw m)
        m.2.1 sw).1 = .scalarV .pyNan := by
      unfold MFE.getFeatValue
      rw [h]
    simp only [MFE.extractFeature]
    rw [hg]
  · intro cb fv pack rn h
    simp only [MFE.summarize]
    rw [h]
  · intro f n
    simp [MFE.checkSummaryWarnings, MFE.hasNanMV]
  · intro s sx sy rn sw kw hX hy
    rw [extract_eq s sx sy hX hy rn sw kw]
    rfl

/-- C4 witness: a concrete always-raising feature callable and a concrete
always-raising summary callable are both converted to NaN, and a fitted
engine containing them still extracts successfully. -/
theorem C4_witness :
    (MFE.getFeatValue "ft_bad" [] ⟨["X"], fun _ => .tyErr⟩ false).1 =
      .scalarV .pyNan ∧
    (MFE.extractFeature [] [] true false (fun _ => none)
        ("ft_bad", ⟨["X"], fun _ => .tyErr⟩, ["X"])).1 =
      (["bad"], [MetaVal.scal .pyNan]) ∧
    MFE.summarize ⟨[], fun _ _ => none⟩ [.pyInt 1] none true = .scal .pyNan ∧
    (MFE.extract
        { X := some [1, 1], y := some [1], splits := none,
          ftMtdMetadata := [("ft_bad", ⟨["X"], fun _ => .tyErr⟩, ["X"])],
          summary := [] } true false (fun _ => none)).isOk = true := by
  refine ⟨(C4_failures_to_nan.1 "ft_bad" [] ⟨["X"], fun _ => .tyErr⟩ false rfl).1,
    (C4_failures_to_nan.2.1 [] [] true false (fun _ => none)
      ("ft_bad", ⟨["X"], fun _ => .tyErr⟩, ["X"]) rfl).trans (by decide),
    C4_failures_to_nan.2.2.1 ⟨[], fun _ _ => none⟩ [.pyInt 1] none true rfl,
    C4_failures_to_nan.2.2.2.2 _ [1, 1] [1] true false (fun _ => none) rfl rfl⟩

/-! ### Claim C7 — state errors -/

/-- C7: `extract` on an engine whose stored `X` or `y` is absent fails
with the state error and produces no output; after any successful `fit`
the state error can never occur. -/
theorem C7_unfitted_state_error :
    (∀ (s : MFEState) (remove_nan suppress_warnings : Bool)
        (kwargs : String → Option Dict),
      (s.X = none ∨ s.y = none) →
      MFE.extract s remove_nan suppress_warnings kwargs = .error .notFitted) ∧
    (∀ (s s' : MFEState) (X y : PyInput) (splits : Option PyVal)
        (remove_nan suppress_warnings : Bool) (kwargs : String → Option Dict),
      MFE.fit s X y splits = .ok s' →
      MFE.extract s' remove_nan suppress_warnings kwargs ≠ .error .notFitted) := by
  constructor
  · intro s remove_nan suppress_warnings kwargs h
    unfold MFE.extract
    rcases h with h | h <;> rw [h] <;> cases hx : s.X <;> cases hy : s.y <;> rfl
  · intro s s' X y splits remove_nan suppress_warnings kwargs hfit
    unfold MFE.fit at hfit
    cases hcd : check_data X y with
    | error e => rw [hcd] at hfit; exact absurd hfit (by simp)
    | ok p =>
        rw [hcd] at hfit
        have hs' : s' = { s with X := some p.1, y := some p.2, splits := splits } := by
          cases p
          simpa using hfit.symm
        subst hs'
        rw [extract_eq _ p.1 p.2 rfl rfl]
        simp

/-- C7 witness: a freshly constructed engine raises the state error, and
after fitting a 2-row dataset it does not. -/
theorem C7_witness :
    MFE.extract
      { X := none, y := none, splits := none, ftMtdMetadata := [], summary := [] }
      true false (fun _ => none) = .error .notFitted ∧
    MFE.extract
      { X := some [2, 2], y := some [2], splits := none,
        ftMtdMetadata := [], summary := [] }
      true false (fun _ => none) ≠ .error .notFitted := by
  constructor
  · exact C7_unfitted_state_error.1 _ true false (fun _ => none) (Or.inl rfl)
  · exact C7_unfitted_state_error.2
      { X := none, y := none, splits := none, ftMtdMetadata := [], summary := [] }
      _ (.arrLike [2, 2]) (.arrLike [2]) none true false (fun _ => none) rfl

/-! ### Claim C5 — fit input validation -/

/-- C5: `fit` raises a type error when `X` or `y` is neither a list nor
an array; for array-likes (of dimension one or two for `X`, as in the
engine's data model) it raises a value error exactly when the row count
of `X` — after reshaping a 1-D `X` to a single column — differs from the
length of the flattened `y`; otherwise it succeeds and stores `X` coerced
to a 2-D array and `y` coerced to a 1-D array. -/
theorem C5_fit_validation :
    (∀ y, check_data .notArr y = .error .typeErr) ∧
    (∀ sx, check_data (.arrLike sx) .notArr = .error .typeErr) ∧
    (∀ (sx sy : List Nat), sx.length = 1 ∨ sx.length = 2 →
      (let sxr := if sx.length = 1 then sx ++ [1] else sx
       (sxr.headD 0 ≠ sy.prod →
          check_data (.arrLike sx) (.arrLike sy) = .error .valueErr) ∧
       (sxr.headD 0 = sy.prod →
          check_data (.arrLike sx) (.arrLike sy) = .ok (sxr, [sy.prod]) ∧
          sxr.length = 2 ∧
          (∀ (s : MFEState) (splits : Option PyVal),
            MFE.fit s (.arrLike sx) (.arrLike sy) splits =
              .ok { s with X := some sxr, y := some [sy.prod],
                           splits := splits })))) := by
  refine ⟨fun y => by cases y <;> rfl, fun sx => rfl, ?_⟩
  intro sx sy hdim
  have hred : check_data (.arrLike sx) (.arrLike sy) =
      if (if sx.length = 1 then sx ++ [1] else sx).headD 0 ≠ sy.prod
      then .error .valueErr
      else .ok (if sx.length = 1 then sx ++ [1] else sx, [sy.prod]) := rfl
  refine ⟨?_, ?_⟩
  · intro hne
    rw [hred, if_pos hne]
  · intro heq
    have hcd : check_data (.arrLike sx) (.arrLike sy) =
        .ok (if sx.length = 1 then sx ++ [1] else sx, [sy.prod]) := by
      rw [hred, if_neg (fun hc => hc heq)]
    refine ⟨hcd, ?_, ?_⟩
    · rcases hdim with h1 | h2
      · simp [if_pos h1, h1]
      · have : ¬(sx.length = 1) := by omega
        simp [if_neg this, h2]
    · intro s splits
      unfold MFE.fit
      rw [hcd]

/-- C5 witness: a non-array `X` is a type error; a 4-row matrix against a
3-label vector is a value error; a 1-D, 4-element `X` against 4 labels
succeeds, stored as a 4-by-1 matrix and a flat 4-vector. -/
theorem C5_witness :
    check_data .notArr (.arrLike [4]) = .error .typeErr ∧
    check_data (.arrLike [4, 2]) (.arrLike [3]) = .error .valueErr ∧
    check_data (.arrLike [4]) (.arrLike [4]) = .ok ([4, 1], [4]) := by
  have h := C5_fit_validation
  refine ⟨h.1 (.arrLike [4]), ?_, ?_⟩
  · exact (h.2.2 [4, 2] [3] (Or.inr rfl)).1 (by decide)
  · exact ((h.2.2 [4] [4] (Or.inl rfl)).2 (by decide)).1

/-! ### Feature-matching loop lemmas (for C6 and C8) -/

theorem processFeaturesLoop_no_match (processed : List String)
    (mtds : List (String × PyCallable))
    (h : ∀ m ∈ mtds, remove_mtd_pfx m.1 ∉ processed) :
    processFeaturesLoop processed mtds = (([], []), processed) := by
  induction mtds with
  | nil => rfl
  | cons m rest ih =>
      simp only [processFeaturesLoop]
      rw [if_neg (h m (List.mem_cons_self m rest))]
      exact ih (fun m' hm' => h m' (List.mem_cons_of_mem m hm'))

theorem processFeaturesLoop_leftover (mtds : List (String × PyCallable)) :
    ∀ processed : List String, processed.Nodup →
    (processFeaturesLoop processed mtds).2 =
      processed.filter
        (fun n => n ∉ mtds.map (fun m => remove_mtd_pfx m.1)) := by
  induction mtds with
  | nil =>
      intro processed _
      simp [processFeaturesLoop]
  | cons m rest ih =>
      intro processed hp
      simp only [processFeaturesLoop]
      by_cases hmem : remove_mtd_pfx m.1 ∈ processed
      · rw [if_pos hmem]
        show (processFeaturesLoop (processed.erase (remove_mtd_pfx m.1)) rest).2 = _
        rw [ih _ (hp.erase _), hp.erase_eq_filter, List.filter_filter]
        refine List.filter_congr (fun n hn => ?_)
        by_cases h1 : n = remove_mtd_pfx m.1 <;>
          by_cases h2 : n ∈ rest.map (fun m => remove_mtd_pfx m.1) <;>
            simp [h1, h2]
      · rw [if_neg hmem]
        rw [ih _ hp]
        refine List.filter_congr (fun n hn => ?_)
        have hne : n ≠ remove_mtd_pfx m.1 := fun hc => hmem (hc ▸ hn)
        by_cases h2 : n ∈ rest.map (fun m => remove_mtd_pfx m.1) <;>
          simp [hne, h2]

theorem processFeaturesLoop_matched (mtds : List (String × PyCallable)) :
    ∀ processed : List String,
    (mtds.map (fun m => remove_mtd_pfx m.1)).Nodup →
    (processFeaturesLoop processed mtds).1 =
      ((mtds.map (fun m => remove_mtd_pfx m.1)).filter (fun n => n ∈ processed),
       (mtds.filter (fun m => remove_mtd_pfx m.1 ∈ processed)).map
         (fun m => (m.1, m.2, m.2.args))) := by
  induction mtds with
  | nil => intro processed _; rfl
  | cons m rest ih =>
      intro processed hreg
      simp only [List.map_cons, List.nodup_cons] at hreg
      obtain ⟨hnotin, hrest⟩ := hreg
      simp only [processFeaturesLoop]
      by_cases hmem : remove_mtd_pfx m.1 ∈ processed
      · rw [if_pos hmem]
        have hr := ih (processed.erase (remove_mtd_pfx m.1)) hrest
        have hcong1 : (rest.map (fun m => remove_mtd_pfx m.1)).filter
            (fun n => n ∈ processed.erase (remove_mtd_pfx m.1)) =
            (rest.map (fun m => remove_mtd_pfx m.1)).filter
              (fun n => n ∈ processed) := by
          refine List.filter_congr (fun n hn => ?_)
          have hne : n ≠ remove_mtd_pfx m.1 := fun hc => hnotin (hc ▸ hn)
          simp only [decide_eq_decide]
          exact List.mem_erase_of_ne hne
        have hcong2 : rest.filter
            (fun m' => remove_mtd_pfx m'.1 ∈ processed.erase (remove_mtd_pfx m.1)) =
            rest.filter (fun m' => remove_mtd_pfx m'.1 ∈ processed) := by
          refine List.filter_congr (fun m' hm' => ?_)
          have hne : remove_mtd_pfx m'.1 ≠ remove_mtd_pfx m.1 :=
            fun hc => hnotin (hc ▸ List.mem_map_of_mem _ hm')
          simp only [decide_eq_decide]
          exact List.mem_erase_of_ne hne
        simp only [List.map_cons]
        rw [List.filter_cons_of_pos (by simpa using hmem),
          List.filter_cons_of_pos (by simpa using hmem)]
        rw [show (processFeaturesLoop (processed.erase (remove_mtd_pfx m.1))
          rest).1.1 = _ from congrArg Prod.fst hr,
          show (processFeaturesLoop (processed.erase (remove_mtd_pfx m.1))
          rest).1.2 = _ from congrArg Prod.snd hr]
        rw [hcong1, hcong2]
        simp [List.map_cons]
      · rw [if_neg hmem]
        rw [show (processFeaturesLoop processed rest).1 = _ from ih processed hrest]
        simp only [List.map_cons]
        rw [List.filter_cons_of_neg (by simpa using hmem),
          List.filter_cons_of_neg (by simpa using hmem)]

/-! ### Claim C6 — unknown explicit feature names warn, never raise -/

/-- C6: for an explicit (list-valued, non-wildcard) feature selection,
`process_features` never raises: it returns normally, emitting exactly
one warning for each (deduplicated, lower-cased) requested name that
matches no registered feature in the selected groups — and none when
warnings are suppressed; processing continues with the names that did
match (in registry order); a selection containing only unknown names
yields an empty selected-feature result. -/
theorem C6_unknown_features_warn (ft_mtds_dict : FtMtdsDict)
    (groups : Option (List String)) (wildcard : String) (ls : List String)
    (hnd : ((pySet ls).map strLower).Nodup) :
    (process_features (.strList ls) ft_mtds_dict groups wildcard false).2 =
      (((pySet ls).map strLower).filter
        (fun n => n ∉ (filter_mtd_dict ft_mtds_dict groups).map
          (fun m => remove_mtd_pfx m.1))).map ftWarnMsg ∧
    (process_features (.strList ls) ft_mtds_dict groups wildcard true).2 = [] ∧
    (((filter_mtd_dict ft_mtds_dict groups).map
        (fun m => remove_mtd_pfx m.1)).Nodup →
      (process_features (.strList ls) ft_mtds_dict groups wildcard false).1 =
        (((filter_mtd_dict ft_mtds_dict groups).map
            (fun m => remove_mtd_pfx m.1)).filter
          (fun n => n ∈ (pySet ls).map strLower),
         ((filter_mtd_dict ft_mtds_dict groups).filter
            (fun m => remove_mtd_pfx m.1 ∈ (pySet ls).map strLower)).map
          (fun m => (m.1, m.2, m.2.args)))) ∧
    ((∀ n ∈ (pySet ls).map strLower,
        n ∉ (filter_mtd_dict ft_mtds_dict groups).map
          (fun m => remove_mtd_pfx m.1)) →
      (process_features (.strList ls) ft_mtds_dict groups wildcard false).1 =
        ([], [])) := by
  by_cases hnil : ls = []
  · subst hnil
    refine ⟨rfl, rfl, fun _ => ?_, fun _ => rfl⟩
    simp [process_features, pySet, pySetAux,
      List.filter_eq_nil_iff, selFalsy]
  · have hfalsy : selFalsy (Sel.strList ls) = false := by
      simp [selFalsy, hnil]
    have hred : ∀ sw, process_features (.strList ls) ft_mtds_dict groups
        wildcard sw =
        (let r := processFeaturesLoop ((pySet ls).map strLower)
          (filter_mtd_dict ft_mtds_dict groups)
         (r.1, if sw then [] else r.2.map ftWarnMsg)) := by
      intro sw
      unfold process_features
      rw [hfalsy]
      rfl
    refine ⟨?_, ?_, ?_, ?_⟩
    · rw [hred false]
      simp only [Bool.false_eq_true, if_false]
      rw [processFeaturesLoop_leftover _ _ hnd]
    · rw [hred true]
      simp
    · intro hreg
      rw [hred false]
      simp only []
      rw [processFeaturesLoop_matched _ _ hreg]
    · intro hunk
      rw [hred false]
      have := processFeaturesLoop_no_match ((pySet ls).map strLower)
        (filter_mtd_dict ft_mtds_dict groups)
        (fun m hm hmem => hunk _ hmem (List.mem_map_of_mem _ hm))
      simp only [this]

/-- C6 witness: requesting `["bad", "A"]` against a registry with the
single feature `ft_a` warns once about `bad` and matches `a`; requesting
only `["bad"]` yields the empty result without raising. -/
theorem C6_witness :
    (process_features (.strList ["bad", "A"])
        [("general", [("ft_a", ⟨["X"], fun _ => .scal .pyNone⟩)])]
        (some ["general"]) "all" false).2 = [ftWarnMsg "bad"] ∧
    (process_features (.strList ["bad", "A"])
        [("general", [("ft_a", ⟨["X"], fun _ => .scal .pyNone⟩)])]
        (some ["general"]) "all" false).1.1 = ["a"] ∧
    (process_features (.strList ["bad"])
        [("general", [("ft_a", ⟨["X"], fun _ => .scal .pyNone⟩)])]
        (some ["general"]) "all" false).1 = ([], []) := by
  have h1 := C6_unknown_features_warn
    [("general", [("ft_a", ⟨["X"], fun _ => .scal .pyNone⟩)])]
    (some ["general"]) "all" ["bad", "A"] (by decide)
  have h2 := C6_unknown_features_warn
    [("general", [("ft_a", ⟨["X"], fun _ => .scal .pyNone⟩)])]
    (some ["general"]) "all" ["bad"] (by decide)
  refine ⟨h1.1.trans (by decide), ?_, h2.2.2.2 (by decide)⟩
  have := h1.2.2.1 (by decide)
  exact (congrArg Prod.fst this).trans (by decide)

/-! ### Claim C9 — precompute routines skip recomputation -/

/-- C9: when every output key of a precompute routine is already present
in the kwargs it receives, the routine does not execute its computing
body (the boolean component is `false`) and returns an empty
contribution.  Shown for the two cited routines,
`MFEClustering.precompute_group_distances` and
`MFEComplexity.precompute_pca_tx`. -/
theorem C9_precompute_skip :
    (∀ (N : PyVal) (y : Option PyVal) (dist_metric : String)
        (classes : Option PyVal) (d1 d2 d3 : PyVal) (kwargs : List String),
      "pairwise_norm_interclass_dist" ∈ kwargs →
      "pairwise_intraclass_dists" ∈ kwargs →
      "intraclass_dists" ∈ kwargs →
      precompute_group_distances N y dist_metric classes d1 d2 d3 kwargs =
        ([], false)) ∧
    (∀ (pca_m_ : Nat) (N : Option (List Nat)) (kwargs : List String),
      "m" ∈ kwargs → "m_" ∈ kwargs → "n" ∈ kwargs →
      precompute_pca_tx pca_m_ N kwargs = ([], false)) := by
  constructor
  · intro N y dist_metric classes d1 d2 d3 kwargs h1 h2 h3
    unfold precompute_group_distances
    have hall : (["pairwise_norm_interclass_dist", "pairwise_intraclass_dists",
        "intraclass_dists"].all (fun k => kwargs.contains k)) = true := by
      simp [List.all_cons, h1, h2, h3]
    rw [hall]
    simp
  · intro pca_m_ N kwargs h1 h2 h3
    unfold precompute_pca_tx
    cases N with
    | none => rfl
    | some shape =>
        have c1 : kwargs.contains "m" = true := List.elem_iff.mpr h1
        rw [c1]
        simp

/-- C9 witness: with all output keys pre-supplied, both routines return
the empty contribution without running their bodies. -/
theorem C9_witness :
    precompute_group_distances (.pyArr [2, 2]) (some (.pyArr [2])) "euclidean"
      none (.pyInt 0) (.pyInt 1) (.pyInt 2)
      ["pairwise_norm_interclass_dist", "pairwise_intraclass_dists",
       "intraclass_dists"] = ([], false) ∧
    precompute_pca_tx 1 (some [3, 2]) ["m", "m_", "n"] = ([], false) := by
  exact ⟨C9_precompute_skip.1 (.pyArr [2, 2]) (some (.pyArr [2])) "euclidean"
      none (.pyInt 0) (.pyInt 1) (.pyInt 2) _ (by decide) (by decide) (by decide),
    C9_precompute_skip.2 1 (some [3, 2]) _ (by decide) (by decide) (by decide)⟩

/-! ### pySet, zip and permutation lemmas (for C8) -/

theorem mem_pySetAux (x : String) :
    ∀ (l seen : List String), x ∈ pySetAux seen l ↔ x ∈ l ∧ x ∉ seen := by
  intro l
  induction l with
  | nil => intro seen; simp [pySetAux]
  | cons y ys ih =>
      intro seen
      simp only [pySetAux]
      by_cases hy : y ∈ seen
      · rw [if_pos hy, ih seen]
        constructor
        · rintro ⟨h1, h2⟩
          exact ⟨List.mem_cons_of_mem y h1, h2⟩
        · rintro ⟨h1, h2⟩
          rcases List.mem_cons.mp h1 with h | h
          · exact absurd (h ▸ hy) h2
          · exact ⟨h, h2⟩
      · rw [if_neg hy]
        simp only [List.mem_cons, ih (y :: seen)]
        constructor
        · rintro (h | ⟨h1, h2⟩)
          · subst h
            exact ⟨Or.inl rfl, hy⟩
          · exact ⟨Or.inr h1, fun hc => h2 (Or.inr hc)⟩
        · rintro ⟨h1, h2⟩
          by_cases hxy : x = y
          · exact Or.inl hxy
          · rcases h1 with h | h
            · exact absurd h hxy
            · exact Or.inr ⟨h, fun hc => h2 (hc.resolve_left hxy)⟩

theorem pySet_mem (x : String) (l : List String) : x ∈ pySet l ↔ x ∈ l := by
  rw [pySet, mem_pySetAux]
  simp

theorem pySetAux_nodup : ∀ (l seen : List String), (pySetAux seen l).Nodup := by
  intro l
  induction l with
  | nil => intro seen; simp [pySetAux]
  | cons y ys ih =>
      intro seen
      simp only [pySetAux]
      by_cases hy : y ∈ seen
      · rw [if_pos hy]
        exact ih seen
      · rw [if_neg hy]
        refine List.nodup_cons.mpr ⟨?_, ih (y :: seen)⟩
        intro hc
        exact ((mem_pySetAux y ys (y :: seen)).mp hc).2 (List.mem_cons_self y seen)

theorem pySet_nodup (l : List String) : (pySet l).Nodup := pySetAux_nodup l []

theorem pySetAux_eq_self :
    ∀ (l seen : List String), l.Nodup → (∀ x ∈ l, x ∉ seen) →
      pySetAux seen l = l := by
  intro l
  induction l with
  | nil => intro seen _ _; rfl
  | cons y ys ih =>
      intro seen hnd hdisj
      simp only [pySetAux]
      rw [if_neg (hdisj y (List.mem_cons_self y ys))]
      congr 1
      refine ih (y :: seen) (List.nodup_cons.mp hnd).2 (fun x hx hc => ?_)
      rcases List.mem_cons.mp hc with h | h
      · exact (List.nodup_cons.mp hnd).1 (h ▸ hx)
      · exact hdisj x (List.mem_cons_of_mem y hx) h

theorem pySet_eq_self {l : List String} (h : l.Nodup) : pySet l = l :=
  pySetAux_eq_self l [] h (fun x _ => List.not_mem_nil x)

theorem zip_flatMap {α β γ : Type} (l : List α) (f : α → List β) (g : α → List γ)
    (h : ∀ m ∈ l, (f m).length = (g m).length) :
    (l.flatMap f).zip (l.flatMap g) = l.flatMap (fun m => (f m).zip (g m)) := by
  induction l with
  | nil => rfl
  | cons m rest ih =>
      simp only [List.flatMap_cons]
      rw [List.zip_append (h m (List.mem_cons_self m rest)),
        ih (fun x hx => h x (List.mem_cons_of_mem m hx))]

theorem extractFeature_pairs_perm (inner : Dict)
    (sum1 sum2 : List (String × SumCallable × List String))
    (hperm : sum1.Perm sum2) (remove_nan sw : Bool)
    (kwargs : String → Option Dict) (m : String × PyCallable × List String) :
    ((MFE.extractFeature inner sum1 remove_nan sw kwargs m).1.1.zip
      (MFE.extractFeature inner sum1 remove_nan sw kwargs m).1.2).Perm
    ((MFE.extractFeature inner sum2 remove_nan sw kwargs m).1.1.zip
      (MFE.extractFeature inner sum2 remove_nan sw kwargs m).1.2) := by
  unfold MFE.extractFeature
  cases h : (MFE.getFeatValue m.1
      (MFE.ftArgsPack inner kwargs sw m) m.2.1 sw).1 with
  | scalarV v =>
      simp only [h]
      exact List.Perm.refl _
  | vectorV vs =>
      simp only [h, callSummaryMethods_eq]
      rw [List.zip_map', List.zip_map']
      exact hperm.map _

/-- The wildcard path of `process_features`: every method of the
group-filtered registry, in registry order, with no warnings. -/
theorem process_features_wildcard (dict : FtMtdsDict)
    (groups : Option (List String)) (sw : Bool) :
    process_features (.str "all") dict groups "all" sw =
      (((filter_mtd_dict dict groups).map (fun m => remove_mtd_pfx m.1),
        (filter_mtd_dict dict groups).map (fun m => (m.1, m.2, m.2.args))),
       []) := rfl

/-! ### Claim C8 — wildcard vs explicit enumeration -/

/-- C8 (amended): for each selection category, the wildcard token and an
explicit enumeration of every registered name select the same *set* of
names, and wildcard matching is case-insensitive; for the features
category the two constructions give identical downstream output; for the
groups and summary categories the explicit enumeration is routed through
an unordered Python set, so the selected tuple — and hence the order of
the downstream output columns — may be an arbitrary permutation of the
wildcard's, the `(name, value)` output pairs agreeing as multisets. -/
theorem C8_wildcard_equivalence :
    (∀ u : String, strLower u = "all" →
      process_groups (.str u) = .ok VALID_GROUPS) ∧
    (∀ e : List String, (pySet (e.map strLower)).Perm VALID_GROUPS →
      process_groups (.strList e) = .ok (pySet (e.map strLower)) ∧
      (pySet (e.map strLower)).Perm VALID_GROUPS) ∧
    (∀ (dict : FtMtdsDict) (groups : Option (List String)) (sw : Bool)
        (e : List String),
      ((filter_mtd_dict dict groups).map (fun m => remove_mtd_pfx m.1)).Nodup →
      ((pySet e).map strLower).Perm
        ((filter_mtd_dict dict groups).map (fun m => remove_mtd_pfx m.1)) →
      process_features (.strList e) dict groups "all" sw =
        process_features (.str "all") dict groups "all" sw) ∧
    (∀ (SM : List (String × SumCallable)) (u : String), strLower u = "all" →
      process_summary SM (.str u) =
        .ok (dictKeys SM, (dictKeys SM).filterMap (fun f =>
          (List.lookup f SM).map (fun cb => (f, cb, cb.args))))) ∧
    (∀ (SM : List (String × SumCallable)) (e : List String),
      dictKeys SM ≠ [] → "all" ∉ dictKeys SM →
      (pySet (e.map strLower)).Perm (dictKeys SM) →
      process_summary SM (.strList e) =
        .ok (pySet (e.map strLower), (pySet (e.map strLower)).filterMap (fun f =>
          (List.lookup f SM).map (fun cb => (f, cb, cb.args)))) ∧
      ((pySet (e.map strLower)).filterMap (fun f =>
          (List.lookup f SM).map (fun cb => (f, cb, cb.args)))).Perm
        ((dictKeys SM).filterMap (fun f =>
          (List.lookup f SM).map (fun cb => (f, cb, cb.args))))) ∧
    (∀ (ftm : List (String × PyCallable × List String))
        (sum1 sum2 : List (String × SumCallable × List String))
        (sx sy : List Nat) (splits : Option PyVal) (rn sw : Bool)
        (kw : String → Option Dict),
      sum1.Perm sum2 →
      ∃ r1 r2,
        MFE.extract ⟨some sx, some sy, splits, ftm, sum1⟩ rn sw kw = .ok r1 ∧
        MFE.extract ⟨some sx, some sy, splits, ftm, sum2⟩ rn sw kw = .ok r2 ∧
        (r1.1.1.zip r1.1.2).Perm (r2.1.1.zip r2.1.2)) ∧
    (∀ (ftm1 ftm2 : List (String × PyCallable × List String))
        (summ : List (String × SumCallable × List String))
        (sx sy : List Nat) (splits : Option PyVal) (rn sw : Bool)
        (kw : String → Option Dict),
      ftm1.Perm ftm2 →
      ∃ r1 r2,
        MFE.extract ⟨some sx, some sy, splits, ftm1, summ⟩ rn sw kw = .ok r1 ∧
        MFE.extract ⟨some sx, some sy, splits, ftm2, summ⟩ rn sw kw = .ok r2 ∧
        (r1.1.1.zip r1.1.2).Perm (r2.1.1.zip r2.1.2)) ∧
    (∀ (dict : FtMtdsDict) (gl1 gl2 : List String),
      gl1.Nodup → gl1.Perm gl2 → gl1 ≠ [] →
      (filter_mtd_dict dict (some gl1)).Perm (filter_mtd_dict dict (some gl2)) ∧
      (∀ sw, ((process_features (.str "all") dict (some gl1) "all" sw).1.2).Perm
        ((process_features (.str "all") dict (some gl2) "all" sw).1.2))) := by
  have hlowall : strLower "all" = "all" := by decide
  refine ⟨?_, ?_, ?_, ?_, ?_, ?_, ?_, ?_⟩
  · -- groups, wildcard, case-insensitive
    intro u hlow
    have hne : ¬(u = "") := by
      intro hc
      rw [hc] at hlow
      exact absurd hlow (by decide)
    have hch : check_value_in_group (.str u) VALID_GROUPS "all" =
        (VALID_GROUPS, []) := by
      unfold check_value_in_group
      dsimp only
      rw [hlow, hlowall, if_pos rfl]
    simp [process_groups, selFalsy, hne, hch]
  · -- groups, explicit enumeration
    intro e he
    have hvg : ("all" ∉ VALID_GROUPS) ∧ VALID_GROUPS ≠ [] := by decide
    have he_ne : ¬(e = []) := by
      intro hc
      subst hc
      exact hvg.2 he.symm.eq_nil
    have hnotall : "all" ∉ pySet (e.map strLower) :=
      fun hc => hvg.1 (he.mem_iff.mp hc)
    have hch : check_value_in_group (.strList e) VALID_GROUPS "all" =
        (pySet (e.map strLower), []) := by
      unfold check_value_in_group
      dsimp only
      rw [hlowall, if_neg hnotall,
        List.filter_eq_self.mpr (fun a ha => by
          simpa using he.mem_iff.mp ha),
        List.filter_eq_nil_iff.mpr (fun a ha => by
          simpa using he.mem_iff.mp ha)]
    exact ⟨by simp [process_groups, selFalsy, he_ne, hch], he⟩
  · -- features: identical output
    intro dict groups sw e hreg he
    by_cases he_nil : e = []
    · subst he_nil
      have hbares : (filter_mtd_dict dict groups).map
          (fun m => remove_mtd_pfx m.1) = [] := he.symm.eq_nil
      have hfil : filter_mtd_dict dict groups = [] :=
        List.map_eq_nil_iff.mp hbares
      rw [process_features_wildcard, hfil]
      rfl
    · have hfal : ¬(e = []) := he_nil
      have hnd : ((pySet e).map strLower).Nodup := he.symm.nodup hreg
      have hloop := processFeaturesLoop_matched (filter_mtd_dict dict groups)
        ((pySet e).map strLower) hreg
      have hleft := processFeaturesLoop_leftover (filter_mtd_dict dict groups)
        ((pySet e).map strLower) hnd
      have hsteps : process_features (.strList e) dict groups "all" sw =
          ((processFeaturesLoop ((pySet e).map strLower)
              (filter_mtd_dict dict groups)).1,
           if sw then []
           else (processFeaturesLoop ((pySet e).map strLower)
              (filter_mtd_dict dict groups)).2.map ftWarnMsg) := by
        unfold process_features
        rw [show selFalsy (Sel.strList e) = false by simp [selFalsy, hfal]]
        rfl
      rw [hsteps, process_features_wildcard, hloop, hleft]
      rw [List.filter_eq_self.mpr (fun a ha => by
          simpa using he.symm.mem_iff.mp ha),
        List.filter_eq_self.mpr (fun m hm => by
          simpa using he.symm.mem_iff.mp (List.mem_map_of_mem _ hm)),
        List.filter_eq_nil_iff.mpr (fun a ha => by
          simpa using he.mem_iff.mp ha)]
      simp
  · -- summary, wildcard, case-insensitive
    intro SM u hlow
    have hne : ¬(u = "") := by
      intro hc
      rw [hc] at hlow
      exact absurd hlow (by decide)
    have hch : check_value_in_group (.str u) (dictKeys SM) "all" =
        (dictKeys SM, []) := by
      unfold check_value_in_group
      dsimp only
      rw [hlow, hlowall, if_pos rfl]
    simp [process_summary, selFalsy, hne, hch]
  · -- summary, explicit enumeration
    intro SM e hkeys hall he
    have he_ne : ¬(e = []) := by
      intro hc
      subst hc
      exact hkeys he.symm.eq_nil
    have hnotall : "all" ∉ pySet (e.map strLower) :=
      fun hc => hall (he.mem_iff.mp hc)
    have hch : check_value_in_group (.strList e) (dictKeys SM) "all" =
        (pySet (e.map strLower), []) := by
      unfold check_value_in_group
      dsimp only
      rw [hlowall, if_neg hnotall,
        List.filter_eq_self.mpr (fun a ha => by
          simpa using he.mem_iff.mp ha),
        List.filter_eq_nil_iff.mpr (fun a ha => by
          simpa using he.mem_iff.mp ha)]
    refine ⟨by simp [process_summary, selFalsy, he_ne, hch], ?_⟩
    exact he.filterMap _
  · -- downstream: permuted summary selection permutes the output pairs
    intro ftm sum1 sum2 sx sy splits rn sw kw hperm
    refine ⟨_, _,
      extract_eq ⟨some sx, some sy, splits, ftm, sum1⟩ sx sy rfl rfl rn sw kw,
      extract_eq ⟨some sx, some sy, splits, ftm, sum2⟩ sx sy rfl rfl rn sw kw,
      ?_⟩
    rw [zip_flatMap _ _ _ (fun m _ => extractFeature_len _ _ rn sw kw m),
      zip_flatMap _ _ _ (fun m _ => extractFeature_len _ _ rn sw kw m)]
    exact List.Perm.flatMap_left ftm (fun m _ =>
      extractFeature_pairs_perm (MFE.customArgsFt sx sy splits) sum1 sum2
        hperm rn sw kw m)
  · -- downstream: permuted feature metadata permutes the output pairs
    intro ftm1 ftm2 summ sx sy splits rn sw kw hperm
    refine ⟨_, _,
      extract_eq ⟨some sx, some sy, splits, ftm1, summ⟩ sx sy rfl rfl rn sw kw,
      extract_eq ⟨some sx, some sy, splits, ftm2, summ⟩ sx sy rfl rfl rn sw kw,
      ?_⟩
    rw [zip_flatMap _ _ _ (fun m _ => extractFeature_len _ _ rn sw kw m),
      zip_flatMap _ _ _ (fun m _ => extractFeature_len _ _ rn sw kw m)]
    exact hperm.flatMap_right _
  · -- permuted group tuples permute the filtered registry and the
    -- wildcard feature metadata
    intro dict gl1 gl2 hnd hperm hne
    have hnd2 : gl2.Nodup := hperm.nodup hnd
    have hne2 : gl2 ≠ [] := by
      intro hc
      subst hc
      exact hne hperm.eq_nil
    have hf : (filter_mtd_dict dict (some gl1)).Perm
        (filter_mtd_dict dict (some gl2)) := by
      unfold filter_mtd_dict
      dsimp only
      rw [if_neg hne, if_neg hne2, pySet_eq_self hnd, pySet_eq_self hnd2]
      exact (hperm.filter _).flatMap_right _
    refine ⟨hf, fun sw => ?_⟩
    rw [process_features_wildcard, process_features_wildcard]
    exact hf.map _

/-- C8 counterexample: with the spec-modelled summary provider
registering `mean` then `sd`, constructing with `summary="all"` and with
the explicit enumeration `summary=["sd", "mean"]` of every registered
summary name selects the same set of summaries, but the downstream
extraction outputs differ in order (`["v.mean", "v.sd"]` versus
`["v.sd", "v.mean"]`): the explicit enumeration is routed through
`tuple(set(...))`, whose iteration order CPython does not tie to the
registration order, so the claimed equality of downstream outputs fails. -/
theorem C8_counterexample :
    cxRunNames (.str "all") = some ["v.mean", "v.sd"] ∧
    cxRunNames (.strList ["sd", "mean"]) = some ["v.sd", "v.mean"] ∧
    cxRunNames (.str "all") ≠ cxRunNames (.strList ["sd", "mean"]) := by
  refine ⟨by decide, by decide, by decide⟩

/-- C8 witness: the amended statement instantiated — a mixed-case
wildcard for groups; a permuted explicit enumeration of all five groups;
an explicit enumeration of the single feature `v` matching the wildcard
construction exactly; a mixed-case summary wildcard; and permuted
summary/feature/group tuples yielding permuted downstream outputs. -/
theorem C8_witness :
    (process_groups (.str "AlL") = .ok VALID_GROUPS) ∧
    (process_groups (.strList ["info-theory", "general", "landmarking",
        "model-based", "statistical"]) =
      .ok ["info-theory", "general", "landmarking", "model-based",
        "statistical"] ∧
      (["info-theory", "general", "landmarking", "model-based",
        "statistical"] : List String).Perm VALID_GROUPS) ∧
    (process_features (.strList ["v"]) cxFtMtdsDict (some ["general"])
        "all" false =
      process_features (.str "all") cxFtMtdsDict (some ["general"])
        "all" false) ∧
    (process_summary cxSummaryMethods (.str "ALL") =
      .ok (dictKeys cxSummaryMethods,
        (dictKeys cxSummaryMethods).filterMap (fun f =>
          (List.lookup f cxSummaryMethods).map (fun cb => (f, cb, cb.args))))) ∧
    (process_summary cxSummaryMethods (.strList ["sd", "mean"]) =
      .ok (["sd", "mean"],
        (["sd", "mean"] : List String).filterMap (fun f =>
          (List.lookup f cxSummaryMethods).map (fun cb => (f, cb, cb.args))))) ∧
    (∃ r1 r2,
      MFE.extract ⟨some [1, 2], some [1], none,
        [("ft_v", ⟨["X"], fun _ => .vect [.pyInt 5]⟩, ["X"])],
        [("mean", ⟨[], fun _ _ => some (.scal (.pyInt 0))⟩, []),
         ("sd", ⟨[], fun _ _ => some (.scal (.pyInt 1))⟩, [])]⟩
        true false (fun _ => none) = .ok r1 ∧
      MFE.extract ⟨some [1, 2], some [1], none,
        [("ft_v", ⟨["X"], fun _ => .vect [.pyInt 5]⟩, ["X"])],
        [("sd", ⟨[], fun _ _ => some (.scal (.pyInt 1))⟩, []),
         ("mean", ⟨[], fun _ _ => some (.scal (.pyInt 0))⟩, [])]⟩
        true false (fun _ => none) = .ok r2 ∧
      (r1.1.1.zip r1.1.2).Perm (r2.1.1.zip r2.1.2)) ∧
    ((filter_mtd_dict cxFtMtdsDict (some VALID_GROUPS)).Perm
      (filter_mtd_dict cxFtMtdsDict (some VALID_GROUPS.reverse))) := by
  have h := C8_wildcard_equivalence
  have hg2 := h.2.1 ["info-theory", "general", "landmarking",
    "model-based", "statistical"] (by decide)
  have hs2 := h.2.2.2.2.1 cxSummaryMethods ["sd", "mean"] (by decide)
    (by decide) (by decide)
  refine ⟨h.1 "AlL" (by decide), ⟨?_, ?_⟩, ?_, ?_, ?_, ?_, ?_⟩
  · exact hg2.1.trans (congrArg Except.ok (by decide))
  · have := hg2.2
    revert this
    simp only [show pySet ((["info-theory", "general", "landmarking",
      "model-based", "statistical"] : List String).map strLower) =
      ["info-theory", "general", "landmarking", "model-based",
        "statistical"] from by decide]
    exact id
  · exact h.2.2.1 cxFtMtdsDict (some ["general"]) false ["v"]
      (by decide) (by decide)
  · exact h.2.2.2.1 cxSummaryMethods "ALL" (by decide)
  · exact hs2.1.trans (by
      simp only [show pySet ((["sd", "mean"] : List String).map strLower) =
        ["sd", "mean"] from by decide])
  · exact h.2.2.2.2.2.1
      [("ft_v", ⟨["X"], fun _ => .vect [.pyInt 5]⟩, ["X"])]
      [("mean", ⟨[], fun _ _ => some (.scal (.pyInt 0))⟩, []),
       ("sd", ⟨[], fun _ _ => some (.scal (.pyInt 1))⟩, [])]
      [("sd", ⟨[], fun _ _ => some (.scal (.pyInt 1))⟩, []),
       ("mean", ⟨[], fun _ _ => some (.scal (.pyInt 0))⟩, [])]
      [1, 2] [1] none true false (fun _ => none)
      (List.Perm.swap _ _ _)
  · exact (h.2.2.2.2.2.2.2 cxFtMtdsDict VALID_GROUPS VALID_GROUPS.reverse
      (by decide) (by decide) (by decide)).1

/-! ### Claim C10 — the remove_nan filter keeps NaN -/

/-- C10: the pre-summary filter of `_summarize` with `remove_nan=True`
keeps exactly the entries whose Python type is in the fixed numeric type
set and drops all others; a NaN entry is a `float`, hence numeric, hence
kept — so the sequence handed to the summary callable (after the
`float32` cast) still contains every NaN of the input. -/
theorem C10_remove_nan_keeps_nan (features : List PyVal) :
    (∀ v, v ∈ numericFilter features ↔ v ∈ features ∧ isnumeric v = true) ∧
    isnumeric .pyNan = true ∧
    (numericFilter features).count .pyNan = features.count .pyNan ∧
    ((numericFilter features).map toFloat32).count .pyNan =
      features.count .pyNan ∧
    (∀ (cb : SumCallable) (pack : Option Dict),
      MFE.summarize cb features pack true =
        match cb.run ((numericFilter features).map toFloat32)
            (pack.getD []) with
        | some v => v
        | none => .scal .pyNan) := by
  have hcount : (numericFilter features).count .pyNan =
      features.count .pyNan := by
    induction features with
    | nil => rfl
    | cons v vs ih =>
        cases v <;>
          simp_all [numericFilter, List.filter_cons, isnumeric, List.count_cons]
  have hmapcount : ∀ l : List PyVal,
      (l.map toFloat32).count .pyNan = l.count .pyNan := by
    intro l
    induction l with
    | nil => rfl
    | cons v vs ih =>
        cases v <;> simp_all [toFloat32, List.count_cons]
  refine ⟨?_, rfl, hcount, (hmapcount _).trans hcount, ?_⟩
  · intro v
    simp [numericFilter, List.mem_filter]
  · intro cb pack
    rfl

/-- C10 witness (instantiation at a concrete mixed sequence): the filter
drops the string and `None` entries and keeps both numeric entries and
the NaN. -/
theorem C10_witness :
    numericFilter [.pyNan, .pyStr "x", .pyInt 3, .pyNone, .npFloat64 1] =
      [.pyNan, .pyInt 3, .npFloat64 1] ∧
    (numericFilter [.pyNan, .pyStr "x", .pyInt 3, .pyNone,
        .npFloat64 1]).count .pyNan =
      ([PyVal.pyNan, .pyStr "x", .pyInt 3, .pyNone,
        .npFloat64 1] : List PyVal).count .pyNan := by
  exact ⟨by decide,
    (C10_remove_nan_keeps_nan
      [.pyNan, .pyStr "x", .pyInt 3, .pyNone, .npFloat64 1]).2.2.1⟩

end Pymfe
